import Mathlib

/-!
Verification of the Halide autoscheduler core (anderson2021 FunctionDAG
utilities and the apps/autoscheduler beam search) against its
natural-language specification.

The C++ sources embedded here are
`src/autoschedulers/anderson2021/FunctionDAG.h` (OptionalRational,
LoadJacobian, Span) and `apps/autoscheduler/AutoSchedule.cpp`
(optimal_schedule_pass, freeze_lowest_cost_stages, optimal_schedule).

Machine integers are modelled as `Int` together with explicit reduction
modulo 2^32 / 2^64 at every point where the C++ code stores into an
`int32_t` field or computes in a 64-bit intermediate.  `double` costs are
modelled as exact rationals `ℚ` (order-only reasoning).
-/

/-- Two's-complement wrap of an integer into the `int32_t` range,
modelling the implementation-defined narrowing conversions in the source. -/
def wrap32 (x : Int) : Int := (x + 2 ^ 31) % 2 ^ 32 - 2 ^ 31

/-- Two's-complement wrap of an integer into the `int64_t` range. -/
def wrap64 (x : Int) : Int := (x + 2 ^ 63) % 2 ^ 64 - 2 ^ 63

/-- The unsigned 32-bit pattern of an integer, used to model C++ bitwise
`&` on (possibly negative) `int32_t` values. -/
def bits32 (x : Int) : Nat := (x % 2 ^ 32).toNat

/-- `x` is representable in `int32_t`. -/
def isI32 (x : Int) : Prop := -2 ^ 31 ≤ x ∧ x < 2 ^ 31

/-- `x` is representable in `int64_t`. -/
def isI64 (x : Int) : Prop := -2 ^ 63 ≤ x ∧ x < 2 ^ 63

instance (x : Int) : Decidable (isI32 x) := by unfold isI32; infer_instance

instance (x : Int) : Decidable (isI64 x) := by unfold isI64; infer_instance

theorem wrap32_id {x : Int} (h : isI32 x) : wrap32 x = x := by
  obtain ⟨h1, h2⟩ := h
  unfold wrap32
  omega

theorem wrap64_id {x : Int} (h : isI64 x) : wrap64 x = x := by
  obtain ⟨h1, h2⟩ := h
  unfold wrap64
  omega

theorem isI32_isI64 {x : Int} (h : isI32 x) : isI64 x := by
  obtain ⟨h1, h2⟩ := h
  constructor <;> omega

/-- Modelled from the spec: Halide's `gcd` helper (`Util.h`, not under
`src/`), "reduce by `gcd(num, den)`".  Mathematical gcd, nonnegative. -/
def hgcd (a b : Int) : Int := (Int.gcd a b : Int)

/-- Modelled from the spec: Halide's `lcm` helper (`Util.h`, not under
`src/`), "compute common denominator `L = lcm(den₁, den₂)`".
Mathematical lcm, nonnegative. -/
def hlcm (a b : Int) : Int := (Int.lcm a b : Int)

/-- `OptionalRational` from `FunctionDAG.h`: a rational with an
"undefined" state.  The C++ fields are `int32_t`. -/
structure OptionalRational where
  numerator : Int
  denominator : Int
deriving DecidableEq

/-- `OptionalRational(int64_t n, int64_t d)`: the mem-initializers narrow
both arguments into the `int32_t` fields. -/
def OptionalRational.make (n d : Int) : OptionalRational :=
  ⟨wrap32 n, wrap32 d⟩

/-- `bool exists() const { return denominator != 0; }` -/
def OptionalRational.existsb (r : OptionalRational) : Bool :=
  r.denominator != 0

/-- `operator==(int x)`: `exists() && (numerator == (x * denominator))`.
The product is computed in 32-bit `int` arithmetic. -/
def OptionalRational.eqInt (r : OptionalRational) (x : Int) : Bool :=
  r.existsb && (r.numerator == wrap32 (x * r.denominator))

/-- `operator==(const OptionalRational &)`: existence flags must agree and
the cross products (32-bit `int` arithmetic) must agree. -/
def OptionalRational.eqRat (a b : OptionalRational) : Bool :=
  (a.existsb == b.existsb)
    && (wrap32 (a.numerator * b.denominator) == wrap32 (a.denominator * b.numerator))

/-- `operator+=` from `FunctionDAG.h`.  Note the guard is the bitwise AND
`(denominator & other.denominator) == 0`; the equal-denominator fast path
adds numerators without reducing; the general path goes through
`lcm`/`gcd` with every store into the `int32_t` fields narrowed. -/
def OptionalRational.add (r other : OptionalRational) : OptionalRational :=
  if Nat.land (bits32 r.denominator) (bits32 other.denominator) == 0 then
    ⟨0, 0⟩
  else if r.denominator == other.denominator then
    ⟨wrap32 (r.numerator + other.numerator), r.denominator⟩
  else
    let l : Int := hlcm r.denominator other.denominator
    let num1 : Int := wrap32 (r.numerator * l.tdiv r.denominator)
    let den1 : Int := wrap32 l
    let num2 : Int := wrap32 (num1 + other.numerator * l.tdiv other.denominator)
    let g : Int := hgcd num2 den1
    ⟨wrap32 (num2.tdiv g), wrap32 (den1.tdiv g)⟩

/-- `operator*(int64_t factor)`: short-circuits on `(*this) == 0`, else
multiplies the numerator in 64-bit and re-narrows through the
constructor. -/
def OptionalRational.mulFactor (r : OptionalRational) (factor : Int) : OptionalRational :=
  if r.eqInt 0 then r
  else OptionalRational.make (wrap64 (r.numerator * factor)) r.denominator

/-- `operator*(const OptionalRational &)`: short-circuits on either side
equalling zero; both products are computed in 32-bit `int` arithmetic and
then stored through the narrowing constructor. -/
def OptionalRational.mul (r other : OptionalRational) : OptionalRational :=
  if r.eqInt 0 then r
  else if other.eqInt 0 then other
  else OptionalRational.make (wrap32 (r.numerator * other.numerator))
    (wrap32 (r.denominator * other.denominator))

/-- `LoadJacobian` from `FunctionDAG.h`: a `rows × cols` row-major matrix
of `OptionalRational` (`std::vector` `coeffs`) plus an `int64_t` count
`c`. -/
structure LoadJacobian where
  coeffs : List OptionalRational
  c : Int
  rows : Nat
  cols : Nat
deriving DecidableEq

/-- Well-formedness produced by the `LoadJacobian` constructor:
`coeffs.resize(rows * cols)`. -/
def LoadJacobian.wf (m : LoadJacobian) : Prop :=
  m.coeffs.length = m.rows * m.cols

/-- The `const` accessor `operator()(i, j)`: a scalar producer or consumer
(zero `rows` or `cols`) always reads as the exact zero `(0, 1)`; otherwise
`coeffs[i * cols + j]`.  An out-of-bounds vector access (undefined
behavior in C++) is `none`. -/
def LoadJacobian.coeffOpt (m : LoadJacobian) (i j : Nat) : Option OptionalRational :=
  if m.rows = 0 ∨ m.cols = 0 then some ⟨0, 1⟩
  else m.coeffs[i * m.cols + j]?

/-- Total version of `coeffOpt` used to state cell values (in-bounds
accesses agree with `coeffOpt`). -/
def LoadJacobian.coeffVal (m : LoadJacobian) (i j : Nat) : OptionalRational :=
  if m.rows = 0 ∨ m.cols = 0 then ⟨0, 1⟩
  else m.coeffs.getD (i * m.cols + j) ⟨0, 0⟩

/-- `int64_t count() const` -/
def LoadJacobian.count (m : LoadJacobian) : Int := m.c

/-- The inner loop of `LoadJacobian::operator*`: cell `(i, j)` starts at
`OptionalRational{0, 1}` and accumulates `(*this)(i, k) * other(k, j)`
with `operator+=` for `k < consumer_loop_dims()`. -/
def LoadJacobian.dotVal (a b : LoadJacobian) (i j : Nat) : OptionalRational :=
  (List.range a.cols).foldl
    (fun acc k => acc.add ((a.coeffVal i k).mul (b.coeffVal k j))) ⟨0, 1⟩

/-- All coefficient reads performed by `operator*` are in bounds. -/
def LoadJacobian.readsOk (a b : LoadJacobian) : Bool :=
  (List.range (a.rows * b.cols)).all fun n =>
    (List.range a.cols).all fun k =>
      (a.coeffOpt (n / b.cols) k).isSome && (b.coeffOpt k (n % b.cols)).isSome

/-- `LoadJacobian::operator*(const LoadJacobian &other)`: the result is
`rows_A × cols_B` with count `count() * other.count()` (64-bit product)
and cell `(i, j)` the `OptionalRational` dot of row `i` with column `j`.
There is no dimension check in the source; a composition whose reads go
out of bounds (undefined behavior in C++) is `none`. -/
def LoadJacobian.compose (a b : LoadJacobian) : Option LoadJacobian :=
  if a.readsOk b then
    some ⟨(List.range (a.rows * b.cols)).map
            (fun n => a.dotVal b (n / b.cols) (n % b.cols)),
          wrap64 (a.c * b.c), a.rows, b.cols⟩
  else none

/-- `Span` from `FunctionDAG.h`: `int64_t min_, max_` and a
constant-extent flag. -/
structure Span where
  min_ : Int
  max_ : Int
  constant_extent_ : Bool
deriving DecidableEq

/-- `void union_with(const Span &other)`: elementwise min/max and AND of
the constant-extent flags (returned functionally). -/
def Span.union_with (s other : Span) : Span :=
  ⟨min s.min_ other.min_, max s.max_ other.max_,
   s.constant_extent_ && other.constant_extent_⟩

/-- `static Span empty_span()` : `Span(INT64_MAX, INT64_MIN, true)`. -/
def Span.empty_span : Span := ⟨2 ^ 63 - 1, -2 ^ 63, true⟩

/-- `s` has `int64_t`-representable endpoints (true of every `Span` the
program builds). -/
def Span.wf (s : Span) : Prop := isI64 s.min_ ∧ isI64 s.max_

/-- A beam-search `State` (from `State.h`, seen through
`AutoSchedule.cpp`): decisions-made counter, a `double` cost (modelled as
`ℚ`), the per-stage cost vector, the `penalized` flag, the structural
hash as a function of the hashing depth, and the parent link. -/
inductive BState : Type where
  | mk : Nat → ℚ → List ℚ → Bool → (Int → Nat) → Option BState → BState

def BState.ndm : BState → Nat
  | .mk n _ _ _ _ _ => n

def BState.cost : BState → ℚ
  | .mk _ c _ _ _ _ => c

def BState.cps : BState → List ℚ
  | .mk _ _ l _ _ _ => l

def BState.penalized : BState → Bool
  | .mk _ _ _ p _ _ => p

def BState.shash : BState → Int → Nat
  | .mk _ _ _ _ h _ => h

def BState.parent : BState → Option BState
  | .mk _ _ _ _ _ p => p

/-- The initial state: `new State` with an empty root loop nest and
`num_decisions_made = 0`. -/
def initialBState (sh : Int → Nat) : BState := .mk 0 0 [] false sh none

/-- The fixed inputs of one `optimal_schedule_pass` invocation.
`genChildren` abstracts `State::generate_children` (in `State.h`, not
under `src/`): the children it feeds to the enqueue callback, in order.
`evalCost` abstracts the cost model's `evaluate_costs` batch rescoring,
and `drop` the outcome of the `n`-th call to `random_dropout`. -/
structure PassParams where
  beamSize : Nat
  numPasses : Nat
  passIdx : Int
  numNodes : Nat
  genChildren : BState → List BState
  evalCost : BState → ℚ × List ℚ
  drop : Nat → Bool
  initHash : Int → Nat

/-- Modelled from the spec: `StateQueue` (in `State.h`, not under `src/`)
is "a max-heap keyed by negative cost (so the best state pops first)".
`pickMin` selects the first state of minimal cost and returns it together
with the remaining states. -/
def pickMin : BState → List BState → List BState → BState × List BState
  | b, acc, [] => (b, acc.reverse)
  | b, acc, y :: ys =>
    if y.cost < b.cost then pickMin y (b :: acc) ys else pickMin b (y :: acc) ys

/-- `StateQueue::pop()` on a nonempty queue (see `pickMin`). -/
def popBest : List BState → Option (BState × List BState)
  | [] => none
  | x :: xs => some (pickMin x [] xs)

/-- `StateQueue::top()` (see `pickMin`). -/
def topBest (l : List BState) : Option BState := (popBest l).map Prod.fst

inductive SearchErr : Type where
  | assertFailed : SearchErr
  | ranOutOfStates : SearchErr
  | outOfFuel : SearchErr
deriving DecidableEq

/-- `state->penalized = true; state->cost *= penalty;` and the per-stage
multiplication loop. -/
def penalizeState (s : BState) (penalty : Nat) : BState :=
  match s with
  | .mk n c cps _ sh par =>
    .mk n (c * (penalty : ℚ)) (cps.map fun x => x * (penalty : ℚ)) true sh par

/-- `++hashes[h1]` on the per-round occurrence map. -/
def bumpHash (h : Nat → Nat) (k : Nat) : Nat → Nat :=
  fun x => if x = k then h k + 1 else h x

/-- The structural-hash penalization block of `optimal_schedule_pass`:
runs only when `beam_size > 1 && num_passes > 1 && pass_idx >= 0` and the
popped state is not already `penalized`.  Returns the (possibly
penalized) state, the updated per-round hash counts, and whether a
penalty `> 1` was applied (which makes the state eligible for
deferral). -/
def maybePenalize (p : PassParams) (perm : Nat → Bool) (hashes : Nat → Nat)
    (s : BState) : BState × (Nat → Nat) × Bool :=
  if decide (1 < p.beamSize) && decide (1 < p.numPasses)
      && decide (0 ≤ p.passIdx) && !s.penalized then
    let h1 := s.shash (p.passIdx + 1)
    let h0 := s.shash (p.passIdx - 1)
    let hashes1 := bumpHash hashes h1
    let pen0 := hashes1 h1
    let pen := if decide (0 < p.passIdx) && !perm h0 then pen0 + 10 else pen0
    if 1 < pen then (penalizeState s pen, hashes1, true)
    else (s, hashes1, false)
  else (s, hashes, false)

/-- The deferral test after penalizing:
`!pending.empty() && state->cost > pending.top()->cost`. -/
def costAboveTop (s : BState) (l : List BState) : Bool :=
  match topBest l with
  | some t => decide (t.cost < s.cost)
  | none => false

/-- The per-child check of the `enqueue_new_children` callback:
`internal_assert(s->num_decisions_made == s->parent->num_decisions_made + 1)`
(a null parent dereference is also fatal). -/
def childOk (c : BState) : Bool :=
  match c.parent with
  | some par => c.ndm == par.ndm + 1
  | none => false

/-- `s->penalized = false;` in `enqueue_new_children`. -/
def clearPenalized : BState → BState
  | .mk n c cps _ sh par => .mk n c cps false sh par

/-- `enqueue_new_children` applied to every child generated from one
expanded state: each child must pass the decisions-counter assert (else
the run aborts), has its `penalized` flag cleared, and is appended to
`q`. -/
def enqueueChildren (children q : List BState) : Option (List BState) :=
  if children.all childOk then some (q ++ children.map clearPenalized)
  else none

/-- The hash-blessing walk at the end of a pass: insert the structural
hash at `pass_idx` of a state and of every ancestor into
`permitted_hashes`. -/
def insertHash (s : Nat → Bool) (h : Nat) : Nat → Bool :=
  fun x => if x = h then true else s x

def blessChain (pi_ : Int) : BState → (Nat → Bool) → (Nat → Bool)
  | .mk _ _ _ _ sh none, perm => insertHash perm (sh pi_)
  | .mk _ _ _ _ sh (some par), perm => blessChain pi_ par (insertHash perm (sh pi_))

/-- The blessing loop run when a terminal state is popped and another
coarse-to-fine pass will follow: bless the ancestor chains of up to
`beam_size` states whose cost is within 20 % of the winner. -/
def blessLoop (p : PassParams) :
    Nat → BState → ℚ → List BState → Nat → (Nat → Bool) → (Nat → Bool)
  | 0, _, _, _, _, perm => perm
  | fuel + 1, state, bestCost, pending, blessed, perm =>
    if decide (state.cost ≤ (6 / 5 : ℚ) * bestCost) && decide (blessed < p.beamSize) then
      let perm1 := blessChain p.passIdx state perm
      match popBest pending with
      | none => perm1
      | some (next, rest) => blessLoop p fuel next bestCost rest (blessed + 1) perm1
    else perm

/-- Result of the inner `while (expanded < beam_size && !pending.empty())`
loop of `optimal_schedule_pass`. -/
inductive InnerOut : Type where
  | winner : BState → (Nat → Bool) → InnerOut
  | roundDone : List BState → Nat → InnerOut
  | fail : SearchErr → InnerOut

/-- The inner expansion loop of `optimal_schedule_pass`, in source order:
pop the best pending state; lazily penalize it (and defer it when it is
no longer the best); apply random dropout when more than one state
remains; return the popped state as the pass winner when it has made
`2 * |nodes|` decisions (blessing hashes if another pass follows);
otherwise expand it through `generate_children` /
`enqueue_new_children`.  Fuel-indexed; callers pass ample fuel. -/
def innerLoop (p : PassParams) (perm : Nat → Bool) :
    Nat → List BState → List BState → (Nat → Nat) → Nat → Nat → InnerOut
  | 0, _, _, _, _, _ => .fail .outOfFuel
  | fuel + 1, pending, q, hashes, expanded, rngIdx =>
    if expanded < p.beamSize then
      match popBest pending with
      | none => .roundDone q rngIdx
      | some (state, rest) =>
        let mp := maybePenalize p perm hashes state
        if mp.2.2 && costAboveTop mp.1 rest then
          innerLoop p perm fuel (rest ++ [mp.1]) q mp.2.1 expanded rngIdx
        else
          let rngIdx2 := if 1 < rest.length then rngIdx + 1 else rngIdx
          if decide (1 < rest.length) && p.drop rngIdx then
            innerLoop p perm fuel rest q mp.2.1 expanded rngIdx2
          else if mp.1.ndm == 2 * p.numNodes then
            .winner mp.1
              (if decide (0 ≤ p.passIdx) && decide (p.passIdx + 1 < (p.numPasses : Int))
               then blessLoop p (rest.length + 1) mp.1 mp.1.cost rest 0 perm
               else perm)
          else
            match enqueueChildren (p.genChildren mp.1) q with
            | none => .fail .assertFailed
            | some q2 => innerLoop p perm fuel rest q2 mp.2.1 (expanded + 1) rngIdx2
    else .roundDone q rngIdx

/-- `evaluate_costs()` rescoring one enqueued state. -/
def reScore (f : BState → ℚ × List ℚ) (s : BState) : BState :=
  match s with
  | .mk n c cps pe sh par => .mk n (f (.mk n c cps pe sh par)).1 (f (.mk n c cps pe sh par)).2 pe sh par

/-- The outer round loop of `optimal_schedule_pass` (`HL_CYOS` unset):
swap `q` into `pending`; a round starting with an empty `pending` is the
"total mortality" fatal internal error (the doubling restart in the
source is intentionally dead code); otherwise run the inner expansion
loop with a fresh per-round hash-count map, then batch-rescore the sink
queue and start the next round. -/
def passLoop (p : PassParams) :
    Nat → List BState → (Nat → Bool) → Nat → Except SearchErr (BState × (Nat → Bool))
  | 0, _, _, _ => .error .outOfFuel
  | fuel + 1, q, perm, rngIdx =>
    if q.isEmpty then .error .ranOutOfStates
    else
      match innerLoop p perm (2 * q.length + p.beamSize + 2) q [] (fun _ => 0) 0 rngIdx with
      | .winner best perm2 => .ok (best, perm2)
      | .fail e => .error e
      | .roundDone q2 rngIdx2 => passLoop p fuel (q2.map (reScore p.evalCost)) perm rngIdx2

/-- `optimal_schedule_pass`: start from the single initial state. -/
def optimal_schedule_pass (p : PassParams) (fuel : Nat) (perm : Nat → Bool) :
    Except SearchErr (BState × (Nat → Bool)) :=
  passLoop p fuel [initialBState p.initHash] perm 0

/-- `node_costs.get(node) += best->cost_per_stage[i]` aggregated over the
stages of one node: `stageNodes` maps each stage id to its node id, in
stage-id order, parallel to the winner's `cost_per_stage`. -/
def sumCostsFor (nid : Nat) (stageNodes : List Nat) (cps : List ℚ) : ℚ :=
  ((stageNodes.zip cps).filter fun sc => sc.1 == nid).foldl (fun a sc => a + sc.2) 0

/-- `std::sort(node_ids_and_costs..., a.second < b.second)`: sorting the
(node id, summed cost) pairs by ascending cost (ties in unspecified
order, as for `std::sort`). -/
def insertByCost (x : Nat × ℚ) : List (Nat × ℚ) → List (Nat × ℚ)
  | [] => [x]
  | y :: ys => if x.2 < y.2 then x :: y :: ys else y :: insertByCost x ys

def sortByCost : List (Nat × ℚ) → List (Nat × ℚ)
  | [] => []
  | x :: xs => insertByCost x (sortByCost xs)

/-- `size_t num_to_freeze = num_nodes - std::log2(num_nodes);` — the
`double` result truncated to an integer equals `⌊n - log₂ n⌋`, which is
`n - ⌈log₂ n⌉`, i.e. `n - Nat.clog 2 n`. -/
def numToFreeze (numNodes : Nat) : Nat := numNodes - Nat.clog 2 numNodes

/-- The node-selection core of `freeze_lowest_cost_stages`: build the
per-node summed stage costs (`nodeIds` lists the non-input node ids,
`stageNodes`/`cps` are indexed by stage id), sort ascending by cost, and
freeze the first `num_nodes - log2(num_nodes)` node ids.  The frozen
nodes are then recorded as inlined or as deep-copied compute-root loop
nests. -/
def freeze_lowest_cost_stages (nodeIds stageNodes : List Nat) (cps : List ℚ) : List Nat :=
  let costs := nodeIds.map fun i => (i, sumCostsFor i stageNodes cps)
  ((sortByCost costs).take (numToFreeze nodeIds.length)).map Prod.fst

/-- The running-best update in `optimal_schedule`'s pass loop:
`if (pass_idx >= 0 && (pass_idx == 0 || pass->cost < best->cost)) best = pass;`
A best is represented by its pass index and cost. -/
def bestUpdate (i : Int) (c : ℚ) : Option (Int × ℚ) → Option (Int × ℚ)
  | none => if 0 ≤ i then some (i, c) else none
  | some b => if 0 ≤ i ∧ (i = 0 ∨ c < b.2) then some (i, c) else some b

/-- `for (; pass_idx < num_passes; pass_idx++)` in `optimal_schedule`,
with `w i` the cost of the winner returned by pass `i`. -/
def schedLoop (w : Int → ℚ) (numPasses : Int) :
    Nat → Int → Option (Int × ℚ) → Option (Int × ℚ)
  | 0, _, best => best
  | fuel + 1, i, best =>
    if i < numPasses then schedLoop w numPasses fuel (i + 1) (bestUpdate i (w i) best)
    else best

/-- `optimal_schedule`: run passes `startIdx .. num_passes - 1` (with
`startIdx = -1` exactly when the freeze-inline-compute-root pre-pass is
requested, in which case a `num_passes > 1` is first decremented) and
keep the lowest-cost winner among the non-pre-pass passes. -/
def optimal_schedule (w : Int → ℚ) (numPasses : Int) (usePrePass : Bool) :
    Option (Int × ℚ) :=
  let np : Int := if usePrePass ∧ 1 < numPasses then numPasses - 1 else numPasses
  let start : Int := if usePrePass then -1 else 0
  schedLoop w np ((np - start).toNat + 1) start none

/-! ### Helper lemmas -/

theorem hlcm_pos {d1 d2 : Int} (h1 : d1 ≠ 0) (h2 : d2 ≠ 0) : 0 < hlcm d1 d2 := by
  have hge : 0 ≤ hlcm d1 d2 := Int.natCast_nonneg _
  have hne : Int.lcm d1 d2 ≠ 0 := by
    intro h
    have := Int.gcd_mul_lcm d1 d2
    rw [h, Nat.mul_zero] at this
    have : d1 * d2 = 0 := by
      have h0 : (d1 * d2).natAbs = 0 := this.symm
      exact Int.natAbs_eq_zero.mp h0
    rcases mul_eq_zero.mp this with h | h
    · exact h1 h
    · exact h2 h
  have : hlcm d1 d2 ≠ 0 := by
    unfold hlcm
    exact_mod_cast fun h => hne (by exact_mod_cast h)
  omega

theorem hgcd_pos_of_right {a b : Int} (hb : b ≠ 0) : 0 < hgcd a b := by
  have hge : 0 ≤ hgcd a b := Int.natCast_nonneg _
  have : hgcd a b ≠ 0 := by
    unfold hgcd
    intro h
    have h' : Int.gcd a b = 0 := by exact_mod_cast h
    exact hb (Int.gcd_eq_zero_iff.mp h').2
  omega

theorem isI32_of_mul_le {g x : Int} (hg : 1 ≤ g) (h : isI32 (g * x)) : isI32 x := by
  obtain ⟨h1, h2⟩ := h
  constructor <;> nlinarith

/-- The general `lcm`/`gcd` path of `operator+=` stores exactly the
reduced `(n1·d2 + n2·d1) / (d1·d2)` when the denominators are positive,
unequal, share a bit, and none of the 32-bit stores wraps. -/
theorem add_exact (n1 d1 n2 d2 : Int)
    (hd1 : 0 < d1) (hd2 : 0 < d2) (hne : d1 ≠ d2)
    (hland : Nat.land (bits32 d1) (bits32 d2) ≠ 0)
    (hl32 : isI32 (hlcm d1 d2))
    (hn1 : isI32 (n1 * (hlcm d1 d2).tdiv d1))
    (hn2 : isI32 (n1 * (hlcm d1 d2).tdiv d1 + n2 * (hlcm d1 d2).tdiv d2)) :
    OptionalRational.add ⟨n1, d1⟩ ⟨n2, d2⟩ =
      ⟨(n1 * d2 + n2 * d1).tdiv (hgcd (n1 * d2 + n2 * d1) (d1 * d2)),
       (d1 * d2).tdiv (hgcd (n1 * d2 + n2 * d1) (d1 * d2))⟩ := by
    have hd1ne : d1 ≠ 0 := by omega
    have hd2ne : d2 ≠ 0 := by omega
    have hb1 : (Nat.land (bits32 d1) (bits32 d2) == 0) = false :=
      beq_eq_false_iff_ne.mpr hland
    have hb2 : (d1 == d2) = false := beq_eq_false_iff_ne.mpr hne
    have hlpos : 0 < hlcm d1 d2 := hlcm_pos hd1ne hd2ne
    obtain ⟨t1, ht1⟩ : d1 ∣ hlcm d1 d2 := Int.dvd_lcm_left
    obtain ⟨t2, ht2⟩ : d2 ∣ hlcm d1 d2 := Int.dvd_lcm_right
    have hq1 : (hlcm d1 d2).tdiv d1 = t1 := by
      rw [ht1, Int.mul_tdiv_cancel_left _ hd1ne]
    have hq2 : (hlcm d1 d2).tdiv d2 = t2 := by
      rw [ht2, Int.mul_tdiv_cancel_left _ hd2ne]
    have hg0pos : 0 < hgcd d1 d2 := hgcd_pos_of_right hd2ne
    have hDg : hgcd d1 d2 * hlcm d1 d2 = d1 * d2 := by
      have h0 := Int.gcd_mul_lcm d1 d2
      have h1 : ((Int.gcd d1 d2 : Int)) * (Int.lcm d1 d2 : Int) = ((d1 * d2).natAbs : Int) := by
        exact_mod_cast congrArg (Nat.cast : Nat → Int) h0
      have h2 : ((d1 * d2).natAbs : Int) = d1 * d2 :=
        Int.natAbs_of_nonneg (by positivity)
      unfold hgcd hlcm
      rw [h1, h2]
    have hgt1 : hgcd d1 d2 * t1 = d2 := by
      have h : d1 * (hgcd d1 d2 * t1) = d1 * d2 := by
        rw [← hDg, ht1]; ring
      exact mul_left_cancel₀ hd1ne h
    have hgt2 : hgcd d1 d2 * t2 = d1 := by
      have h : d2 * (hgcd d1 d2 * t2) = d1 * d2 := by
        rw [← hDg, ht2]; ring
      exact mul_left_cancel₀ hd2ne (by rw [h]; ring)
    have hn1' : isI32 (n1 * t1) := by rw [← hq1]; exact hn1
    have hN : isI32 (n1 * t1 + n2 * t2) := by rw [← hq1, ← hq2]; exact hn2
    set g : Int := hgcd (n1 * t1 + n2 * t2) (hlcm d1 d2) with hgdef
    have hgpos : 0 < g := hgcd_pos_of_right (by omega)
    obtain ⟨N', hN'⟩ : g ∣ (n1 * t1 + n2 * t2) := Int.gcd_dvd_left
    obtain ⟨l', hl'⟩ : g ∣ hlcm d1 d2 := Int.gcd_dvd_right
    have hNdiv : (n1 * t1 + n2 * t2).tdiv g = N' := by
      rw [hN', Int.mul_tdiv_cancel_left _ (by omega)]
    have hldiv : (hlcm d1 d2).tdiv g = l' := by
      rw [hl', Int.mul_tdiv_cancel_left _ (by omega)]
    have hN'32 : isI32 N' := @isI32_of_mul_le g N' (by omega) (by rw [← hN']; exact hN)
    have hl'32 : isI32 l' := @isI32_of_mul_le g l' (by omega) (by rw [← hl']; exact hl32)
    have hA : n1 * d2 + n2 * d1 = hgcd d1 d2 * (n1 * t1 + n2 * t2) := by
      calc n1 * d2 + n2 * d1 = n1 * (hgcd d1 d2 * t1) + n2 * (hgcd d1 d2 * t2) := by
            rw [hgt1, hgt2]
        _ = hgcd d1 d2 * (n1 * t1 + n2 * t2) := by ring
    have hD : d1 * d2 = hgcd d1 d2 * hlcm d1 d2 := hDg.symm
    have hg' : hgcd (n1 * d2 + n2 * d1) (d1 * d2) = hgcd d1 d2 * g := by
      rw [hgdef]
      unfold hgcd
      rw [hA, hD]
      show ((Int.gcd ((Int.gcd d1 d2 : Int) * _) ((Int.gcd d1 d2 : Int) * _) : Nat) : Int) = _
      rw [Int.gcd_mul_left]
      push_cast
      rw [abs_of_nonneg (Int.natCast_nonneg _)]
    have hAdiv : (n1 * d2 + n2 * d1).tdiv (hgcd (n1 * d2 + n2 * d1) (d1 * d2)) = N' := by
      rw [hg', hA, hN', ← mul_assoc]
      exact Int.mul_tdiv_cancel_left _ (ne_of_gt (mul_pos hg0pos hgpos))
    have hDdiv : (d1 * d2).tdiv (hgcd (n1 * d2 + n2 * d1) (d1 * d2)) = l' := by
      rw [hg', hD, hl', ← mul_assoc]
      exact Int.mul_tdiv_cancel_left _ (ne_of_gt (mul_pos hg0pos hgpos))
    simp only [OptionalRational.add, hb1, Bool.false_eq_true, if_false, hb2, hq1, hq2,
      wrap32_id hn1, wrap32_id hl32]
    rw [show wrap32 (n1 * t1) = n1 * t1 from wrap32_id hn1']
    rw [show wrap32 (n1 * t1 + n2 * t2) = n1 * t1 + n2 * t2 from wrap32_id hN]
    rw [hNdiv, hldiv, hAdiv, hDdiv]
    rw [wrap32_id hN'32, wrap32_id hl'32]

/-- Claim C1 (counterexample): the claim predicts that `(1/1) + (1/2)`
(both denominators nonzero) yields the reduced sum `3/2`, but the bitwise
guard `(denominator & other.denominator) == 0` fires on `1 & 2 == 0` and
the source returns the undefined value `(0, 0)`. -/
theorem C1_add_counterexample :
    OptionalRational.add ⟨1, 1⟩ ⟨1, 2⟩ = ⟨0, 0⟩ ∧
      (⟨0, 0⟩ : OptionalRational) ≠ ⟨3, 2⟩ ∧
      (1 : Int) ≠ 0 ∧ (2 : Int) ≠ 0 := by
  refine ⟨by decide, by decide, by decide, by decide⟩

/-- Claim C1 (amended): `operator+=` returns the undefined `(0, 0)`
whenever the bitwise AND of the two denominators' 32-bit patterns is zero
(this includes every pair with a zero denominator, but also defined pairs
such as denominators 1 and 2); when the denominators are equal it adds
the numerators without reducing; otherwise — for positive denominators,
absent 32-bit wraparound of the intermediates — it produces exactly the
reduced `(n1·d2 + n2·d1) / (d1·d2)` of the original claim. -/
theorem C1_add_amended (n1 d1 n2 d2 : Int) :
    (Nat.land (bits32 d1) (bits32 d2) = 0 →
        OptionalRational.add ⟨n1, d1⟩ ⟨n2, d2⟩ = ⟨0, 0⟩) ∧
    (d1 = d2 → Nat.land (bits32 d1) (bits32 d2) ≠ 0 → isI32 (n1 + n2) →
        OptionalRational.add ⟨n1, d1⟩ ⟨n2, d2⟩ = ⟨n1 + n2, d1⟩) ∧
    (0 < d1 → 0 < d2 → d1 ≠ d2 → Nat.land (bits32 d1) (bits32 d2) ≠ 0 →
        isI32 (hlcm d1 d2) →
        isI32 (n1 * (hlcm d1 d2).tdiv d1) →
        isI32 (n1 * (hlcm d1 d2).tdiv d1 + n2 * (hlcm d1 d2).tdiv d2) →
        OptionalRational.add ⟨n1, d1⟩ ⟨n2, d2⟩ =
          ⟨(n1 * d2 + n2 * d1).tdiv (hgcd (n1 * d2 + n2 * d1) (d1 * d2)),
           (d1 * d2).tdiv (hgcd (n1 * d2 + n2 * d1) (d1 * d2))⟩) := by
  refine ⟨?_, ?_, ?_⟩
  · intro h
    simp [OptionalRational.add, h]
  · intro heq hland h32
    subst heq
    have hb1 : (Nat.land (bits32 d1) (bits32 d1) == 0) = false :=
      beq_eq_false_iff_ne.mpr hland
    simp [OptionalRational.add, hb1, wrap32_id h32]
  · exact add_exact n1 d1 n2 d2

/-- Claim C1 (witness for the amended theorem): `(1/2) + (1/3)` hits the
general `lcm`/`gcd` path and stores the exact reduced sum `5/6`. -/
theorem C1_add_amended_witness : OptionalRational.add ⟨1, 2⟩ ⟨1, 3⟩ = ⟨5, 6⟩ := by
  have h := (C1_add_amended 1 2 1 3).2.2 (by decide) (by decide) (by decide)
    (by decide) (by decide) (by decide) (by decide)
  rw [h]
  decide

/-- Claim C2 (counterexample): `(5, 0) == (7, 0)` — both sides fail to
exist, so the claim requires `false`, but the source compares
`exists() == other.exists()` (`false == false` holds) and the cross
products are both zero, so it returns `true`. -/
theorem C2_eqRat_counterexample :
    OptionalRational.eqRat ⟨5, 0⟩ ⟨7, 0⟩ = true ∧
      OptionalRational.existsb ⟨5, 0⟩ = false ∧
      OptionalRational.existsb ⟨7, 0⟩ = false := by
  refine ⟨by decide, by decide, by decide⟩

/-- Claim C2 (amended): `operator==` is true iff either both sides exist
and are cross-multiplicatively equal, or neither side exists (two
undefined values always compare equal, whatever their numerators);
exactly one side existing yields `false` (absent 32-bit wraparound of the
cross products). -/
theorem C2_eqRat_amended (a b : OptionalRational)
    (h1 : isI32 (a.numerator * b.denominator))
    (h2 : isI32 (a.denominator * b.numerator)) :
    a.eqRat b = true ↔
      ((a.existsb = true ∧ b.existsb = true ∧
          a.numerator * b.denominator = a.denominator * b.numerator) ∨
        (a.existsb = false ∧ b.existsb = false)) := by
  obtain ⟨n1, d1⟩ := a
  obtain ⟨n2, d2⟩ := b
  simp only [OptionalRational.eqRat, OptionalRational.existsb] at *
  rw [wrap32_id h1, wrap32_id h2]
  by_cases hd1 : d1 = 0 <;> by_cases hd2 : d2 = 0 <;>
    simp [hd1, hd2, bne]

/-- Claim C2 (witness for the amended theorem): `(1/2) == (2/4)` — both
exist and `1·4 = 2·2`, so equality holds. -/
theorem C2_eqRat_amended_witness :
    OptionalRational.eqRat ⟨1, 2⟩ ⟨2, 4⟩ = true := by
  exact (C2_eqRat_amended ⟨1, 2⟩ ⟨2, 4⟩ (by decide) (by decide)).mpr
    (Or.inl ⟨by decide, by decide, by decide⟩)

/-- Claim C3 (counterexample): `(2^20 / 1) * (2^20 / 1)` has the exact
numerator `2^40`, representable in the 64-bit intermediates the claim
speaks of, yet the stored `int32_t` numerator wraps to `0`: the source
silently truncates and raises no fatal internal error. -/
theorem C3_overflow_counterexample :
    OptionalRational.mul ⟨1048576, 1⟩ ⟨1048576, 1⟩ = ⟨0, 1⟩ ∧
      (1048576 * 1048576 : Int) = 2 ^ 40 ∧
      isI64 ((2 : Int) ^ 40) ∧ ¬ isI32 ((2 : Int) ^ 40) := by
  refine ⟨by decide, by decide, by decide, by decide⟩

/-- Claim C3 (amended): the rational operations detect no overflow at
all — every store narrows to 32 bits by wraparound.  The stored fields
equal the exact results only when the operands, every 32-bit
intermediate, and the exact results themselves fit in `int32_t`: under
those fit hypotheses, multiplication by a rational, scaling by an
integer factor, and addition are exact. -/
theorem C3_arith_amended (n1 d1 n2 d2 f : Int) :
    (OptionalRational.eqInt ⟨n1, d1⟩ 0 = false →
      OptionalRational.eqInt ⟨n2, d2⟩ 0 = false →
      isI32 (n1 * n2) → isI32 (d1 * d2) →
      OptionalRational.mul ⟨n1, d1⟩ ⟨n2, d2⟩ = ⟨n1 * n2, d1 * d2⟩) ∧
    (OptionalRational.eqInt ⟨n1, d1⟩ 0 = false →
      isI32 (n1 * f) → isI32 d1 →
      OptionalRational.mulFactor ⟨n1, d1⟩ f = ⟨n1 * f, d1⟩) ∧
    (0 < d1 → 0 < d2 → d1 ≠ d2 → Nat.land (bits32 d1) (bits32 d2) ≠ 0 →
      isI32 (hlcm d1 d2) →
      isI32 (n1 * (hlcm d1 d2).tdiv d1) →
      isI32 (n1 * (hlcm d1 d2).tdiv d1 + n2 * (hlcm d1 d2).tdiv d2) →
      OptionalRational.add ⟨n1, d1⟩ ⟨n2, d2⟩ =
        ⟨(n1 * d2 + n2 * d1).tdiv (hgcd (n1 * d2 + n2 * d1) (d1 * d2)),
         (d1 * d2).tdiv (hgcd (n1 * d2 + n2 * d1) (d1 * d2))⟩) := by
  refine ⟨?_, ?_, add_exact n1 d1 n2 d2⟩
  · intro hz1 hz2 h3 h4
    simp only [OptionalRational.mul, hz1, hz2, Bool.false_eq_true, if_false,
      OptionalRational.make]
    rw [wrap32_id h3, wrap32_id h3, wrap32_id h4, wrap32_id h4]
  · intro hz1 h3 hd
    simp only [OptionalRational.mulFactor, hz1, Bool.false_eq_true, if_false,
      OptionalRational.make]
    rw [wrap64_id (isI32_isI64 h3), wrap32_id h3, wrap32_id hd]

/-- Claim C3 (witness for the amended theorem): `(2/3) * (5/7) = 10/21`
and `(2/3) * 4 = 8/3`, all intermediates in range, stored exactly. -/
theorem C3_arith_amended_witness :
    OptionalRational.mul ⟨2, 3⟩ ⟨5, 7⟩ = ⟨10, 21⟩ ∧
      OptionalRational.mulFactor ⟨2, 3⟩ 4 = ⟨8, 3⟩ := by
  have h := C3_arith_amended 2 3 5 7 4
  exact ⟨h.1 (by decide) (by decide) (by decide) (by decide),
    h.2.1 (by decide) (by decide) (by decide)⟩

theorem grid_lt {i j r c : Nat} (hi : i < r) (hj : j < c) : i * c + j < r * c := by
  calc i * c + j < i * c + c := by omega
    _ = (i + 1) * c := by ring
    _ ≤ r * c := Nat.mul_le_mul_right c hi

theorem div_grid (i j c : Nat) (hj : j < c) : (i * c + j) / c = i := by
  have h0 : 0 < c := by omega
  rw [show i * c + j = c * i + j from by ring, Nat.mul_add_div h0, Nat.div_eq_of_lt hj]
  omega

theorem mod_grid (i j c : Nat) (hj : j < c) : (i * c + j) % c = j := by
  rw [show i * c + j = c * i + j from by ring, Nat.mul_add_mod, Nat.mod_eq_of_lt hj]

theorem readsOk_of_wf {a b : LoadJacobian} (ha : a.wf) (hb : b.wf)
    (hdim : a.cols = b.rows) : a.readsOk b = true := by
  unfold LoadJacobian.readsOk
  rw [List.all_eq_true]
  intro n hn
  rw [List.all_eq_true]
  intro k hk
  rw [List.mem_range] at hn hk
  have hprod : 0 < a.rows * b.cols := by omega
  have hbc : 0 < b.cols := by
    rcases Nat.eq_zero_or_pos b.cols with h | h
    · rw [h, Nat.mul_zero] at hprod; omega
    · exact h
  have har : 0 < a.rows := by
    rcases Nat.eq_zero_or_pos a.rows with h | h
    · rw [h, Nat.zero_mul] at hprod; omega
    · exact h
  rw [Bool.and_eq_true]
  constructor
  · unfold LoadJacobian.coeffOpt
    split
    · rfl
    · rename_i hzero
      push_neg at hzero
      have hidx : n / b.cols * a.cols + k < a.coeffs.length := by
        rw [ha]
        exact grid_lt ((Nat.div_lt_iff_lt_mul hbc).mpr hn) hk
      rw [List.getElem?_eq_getElem hidx]
      rfl
  · unfold LoadJacobian.coeffOpt
    split
    · rfl
    · rename_i hzero
      push_neg at hzero
      have hidx : k * b.cols + n % b.cols < b.coeffs.length := by
        rw [hb]
        exact grid_lt (hdim ▸ hk) (Nat.mod_lt n hbc)
      rw [List.getElem?_eq_getElem hidx]
      rfl

/-- Claim C4 (counterexample): composing a `1 × 1` Jacobian with a
`2 × 1` Jacobian is a dimension mismatch (`A.cols = 1 ≠ 2 = B.rows`), yet
the source performs no check whatsoever and silently returns a result —
there is no fatal internal error and no diagnostic abort. -/
theorem C4_compose_counterexample :
    LoadJacobian.compose ⟨[⟨1, 1⟩], 1, 1, 1⟩ ⟨[⟨1, 1⟩, ⟨1, 1⟩], 1, 2, 1⟩ =
        some ⟨[⟨1, 1⟩], 1, 1, 1⟩ ∧
      (⟨[⟨1, 1⟩], 1, 1, 1⟩ : LoadJacobian).cols ≠
        (⟨[⟨1, 1⟩, ⟨1, 1⟩], 1, 2, 1⟩ : LoadJacobian).rows := by
  refine ⟨by decide, by decide⟩

/-- Claim C4 (amended): `LoadJacobian::operator*` performs no dimension
check (a mismatch is silently computed, or reads out of bounds — C++
undefined behavior — when `0 < B.rows < A.cols`).  When
`A.cols == B.rows` and both matrices are well-formed, the result is the
`rows_A × cols_B` matrix whose count is the 64-bit product of the counts
(exact whenever that product is representable) and whose `(i, j)` cell is
the `OptionalRational` dot product of row `i` of `A` with column `j` of
`B`. -/
theorem C4_compose_amended (a b : LoadJacobian) (ha : a.wf) (hb : b.wf)
    (hdim : a.cols = b.rows) :
    ∃ r, a.compose b = some r ∧ r.rows = a.rows ∧ r.cols = b.cols ∧ r.wf ∧
      r.c = wrap64 (a.c * b.c) ∧ (isI64 (a.c * b.c) → r.c = a.c * b.c) ∧
      ∀ i j, i < a.rows → j < b.cols →
        r.coeffs[i * b.cols + j]? = some (a.dotVal b i j) := by
  have hro := readsOk_of_wf ha hb hdim
  refine ⟨⟨(List.range (a.rows * b.cols)).map
      (fun n => a.dotVal b (n / b.cols) (n % b.cols)),
      wrap64 (a.c * b.c), a.rows, b.cols⟩, ?_, rfl, rfl, ?_, rfl, ?_, ?_⟩
  · unfold LoadJacobian.compose
    rw [hro]
    simp
  · simp [LoadJacobian.wf]
  · intro h64
    exact wrap64_id h64
  · intro i j hi hj
    have hlt : i * b.cols + j < a.rows * b.cols := grid_lt hi hj
    show ((List.range (a.rows * b.cols)).map
        fun n => a.dotVal b (n / b.cols) (n % b.cols))[i * b.cols + j]? = _
    rw [List.getElem?_map, List.getElem?_range hlt]
    show some (a.dotVal b ((i * b.cols + j) / b.cols) ((i * b.cols + j) % b.cols)) = _
    rw [div_grid i j b.cols hj, mod_grid i j b.cols hj]

/-- Claim C4 (witness for the amended theorem): a matched `1 × 1` by
`1 × 1` composition succeeds. -/
theorem C4_compose_amended_witness :
    (LoadJacobian.compose ⟨[⟨1, 1⟩], 2, 1, 1⟩ ⟨[⟨1, 2⟩], 3, 1, 1⟩).isSome = true := by
  obtain ⟨r, hr, -⟩ :=
    C4_compose_amended ⟨[⟨1, 1⟩], 2, 1, 1⟩ ⟨[⟨1, 2⟩], 3, 1, 1⟩ rfl rfl rfl
  rw [hr]
  rfl

/-- Claim C8: the empty sentinel `(INT64_MAX, INT64_MIN, true)` is an
identity for `union_with` on every `Span` with `int64_t`-representable
endpoints, and `union_with` is commutative and associative (the triple is
independent of operand order and grouping). -/
theorem C8_span_union :
    (∀ s : Span, s.wf → s.union_with Span.empty_span = s) ∧
    (∀ a b : Span, a.union_with b = b.union_with a) ∧
    (∀ a b c : Span, (a.union_with b).union_with c = a.union_with (b.union_with c)) := by
  refine ⟨?_, ?_, ?_⟩
  · rintro ⟨mn, mx, ce⟩ hwf
    simp only [Span.wf, isI64] at hwf
    obtain ⟨⟨h1, h2⟩, h3, h4⟩ := hwf
    simp only [Span.union_with, Span.empty_span, Span.mk.injEq]
    refine ⟨min_eq_left (by omega), max_eq_left (by omega), Bool.and_true ce⟩
  · intro a b
    simp only [Span.union_with, Span.mk.injEq]
    exact ⟨min_comm _ _, max_comm _ _, Bool.and_comm _ _⟩
  · intro a b c
    simp only [Span.union_with, Span.mk.injEq]
    exact ⟨by rw [min_assoc], by rw [max_assoc], by rw [Bool.and_assoc]⟩

/-- Claim C8 (witness): identity, commutativity and associativity at
concrete spans. -/
theorem C8_span_union_witness :
    (Span.mk 0 5 true).union_with Span.empty_span = Span.mk 0 5 true ∧
      (Span.mk 0 5 true).union_with ⟨1, 2, false⟩ =
        (Span.mk 1 2 false).union_with ⟨0, 5, true⟩ ∧
      ((Span.mk 0 5 true).union_with ⟨1, 2, false⟩).union_with ⟨-3, 4, true⟩ =
        (Span.mk 0 5 true).union_with ((Span.mk 1 2 false).union_with ⟨-3, 4, true⟩) := by
  refine ⟨C8_span_union.1 ⟨0, 5, true⟩ ⟨⟨by decide, by decide⟩, by decide, by decide⟩,
    C8_span_union.2.1 ⟨0, 5, true⟩ ⟨1, 2, false⟩,
    C8_span_union.2.2 ⟨0, 5, true⟩ ⟨1, 2, false⟩ ⟨-3, 4, true⟩⟩

theorem enqueueChildren_ok {children q q2 : List BState}
    (h : enqueueChildren children q = some q2) :
    ∀ c ∈ children, ∃ par, c.parent = some par ∧ c.ndm = par.ndm + 1 := by
  unfold enqueueChildren at h
  split at h
  · rename_i hall
    intro c hc
    have hch := List.all_eq_true.mp hall c hc
    unfold childOk at hch
    cases hpar : c.parent with
    | none => rw [hpar] at hch; simp at hch
    | some par =>
      rw [hpar] at hch
      simp only [beq_iff_eq] at hch
      exact ⟨par, rfl, hch⟩
  · cases h

theorem enqueueChildren_eq {children q q2 : List BState}
    (h : enqueueChildren children q = some q2) :
    q2 = q ++ children.map clearPenalized := by
  unfold enqueueChildren at h
  split at h
  · cases h; rfl
  · cases h

theorem clearPenalized_penalized (s : BState) : (clearPenalized s).penalized = false := by
  cases s; rfl

theorem penalizeState_penalized (s : BState) (k : Nat) :
    (penalizeState s k).penalized = true := by
  cases s; rfl

theorem maybePenalize_cases (p : PassParams) (perm : Nat → Bool) (hashes : Nat → Nat)
    (s : BState) :
    (∃ h2, maybePenalize p perm hashes s = (s, h2, false)) ∨
      ∃ k, 1 < k ∧ maybePenalize p perm hashes s =
        (penalizeState s k, bumpHash hashes (s.shash (p.passIdx + 1)), true) := by
  simp only [maybePenalize]
  split
  · split
    · split
      · rename_i hk
        right
        exact ⟨_, hk, rfl⟩
      · left; exact ⟨_, rfl⟩
    · split
      · rename_i hk
        right
        exact ⟨_, hk, rfl⟩
      · left; exact ⟨_, rfl⟩
  · left; exact ⟨_, rfl⟩

theorem maybePenalize_guard_off (p : PassParams) (perm : Nat → Bool) (hashes : Nat → Nat)
    (s : BState) (h : ¬(1 < p.beamSize ∧ 1 < p.numPasses ∧ 0 ≤ p.passIdx)) :
    maybePenalize p perm hashes s = (s, hashes, false) := by
  have hcond : (decide (1 < p.beamSize) && decide (1 < p.numPasses)
      && decide (0 ≤ p.passIdx) && !s.penalized) = false := by
    rcases not_and_or.mp h with h' | h'
    · simp [h']
    · rcases not_and_or.mp h' with h'' | h''
      · simp [h'']
      · simp [h'']
  unfold maybePenalize
  rw [hcond]
  rfl

theorem maybePenalize_skip (p : PassParams) (perm : Nat → Bool) (hashes : Nat → Nat)
    (s : BState) (h : s.penalized = true) :
    maybePenalize p perm hashes s = (s, hashes, false) := by
  have hcond : (decide (1 < p.beamSize) && decide (1 < p.numPasses)
      && decide (0 ≤ p.passIdx) && !s.penalized) = false := by
    simp [h]
  unfold maybePenalize
  rw [hcond]
  rfl

theorem maybePenalize_applied_penalized (p : PassParams) (perm : Nat → Bool)
    (hashes : Nat → Nat) (s : BState)
    (h : (maybePenalize p perm hashes s).2.2 = true) :
    (maybePenalize p perm hashes s).1.penalized = true := by
  rcases maybePenalize_cases p perm hashes s with ⟨h2, heq⟩ | ⟨k, hk, heq⟩
  · rw [heq] at h; cases h
  · rw [heq]; exact penalizeState_penalized s k

theorem innerLoop_winner_ndm (p : PassParams) (perm : Nat → Bool) :
    ∀ fuel pending q hashes expanded rngIdx best pm,
      innerLoop p perm fuel pending q hashes expanded rngIdx = .winner best pm →
      best.ndm = 2 * p.numNodes := by
  intro fuel
  induction fuel with
  | zero =>
    intro pending q hashes expanded rngIdx best pm h
    simp [innerLoop] at h
  | succ n ih =>
    intro pending q hashes expanded rngIdx best pm h
    simp only [innerLoop] at h
    split at h
    · split at h
      · cases h
      · split at h
        · exact ih _ _ _ _ _ _ _ h
        · split at h
          · exact ih _ _ _ _ _ _ _ h
          · split at h
            · rename_i hterm
              cases h
              exact beq_iff_eq.mp hterm
            · split at h
              · cases h
              · exact ih _ _ _ _ _ _ _ h
    · cases h

theorem passLoop_ok_ndm (p : PassParams) :
    ∀ fuel q perm rngIdx best pm,
      passLoop p fuel q perm rngIdx = .ok (best, pm) →
      best.ndm = 2 * p.numNodes := by
  intro fuel
  induction fuel with
  | zero =>
    intro q perm rngIdx best pm h
    simp [passLoop] at h
  | succ n ih =>
    intro q perm rngIdx best pm h
    simp only [passLoop] at h
    split at h
    · cases h
    · split at h
      · rename_i heq
        cases h
        exact innerLoop_winner_ndm p perm _ _ _ _ _ _ _ _ heq
      · cases h
      · exact ih _ _ _ _ _ h

/-- Claim C5: every child state accepted by the `enqueue_new_children`
callback satisfies the asserted `num_decisions_made ==
parent->num_decisions_made + 1` (a violation is a fatal assert and no
state is enqueued), and any state returned by `optimal_schedule_pass`
satisfies `num_decisions_made == 2 * |dag.nodes|` — the pass returns
exactly when a popped state reaches that count. -/
theorem C5_decision_invariants (p : PassParams) :
    (∀ children q q2, enqueueChildren children q = some q2 →
        ∀ c ∈ children, ∃ par, c.parent = some par ∧ c.ndm = par.ndm + 1) ∧
    (∀ fuel perm best pm,
        optimal_schedule_pass p fuel perm = .ok (best, pm) →
        best.ndm = 2 * p.numNodes) :=
  ⟨fun _ _ _ h => enqueueChildren_ok h,
   fun _ perm _ _ h => passLoop_ok_ndm p _ _ perm _ _ _ h⟩

/-- Claim C5 (witness): a singleton child with one more decision than its
parent passes the enqueue assert, and on a zero-node DAG the pass
immediately returns the initial state with `0 = 2 * 0` decisions. -/
theorem C5_decision_invariants_witness :
    (∃ par, (BState.mk 1 0 [] true (fun _ => 0)
        (some (initialBState fun _ => 0))).parent = some par ∧
      (BState.mk 1 0 [] true (fun _ => 0)
        (some (initialBState fun _ => 0))).ndm = par.ndm + 1) ∧
    (initialBState fun _ => 0).ndm = 2 * 0 := by
  constructor
  · exact (C5_decision_invariants
        ⟨1, 1, 0, 0, fun _ => [], fun _ => (0, []), fun _ => false, fun _ => 0⟩).1
      [BState.mk 1 0 [] true (fun _ => 0) (some (initialBState fun _ => 0))] []
      [clearPenalized (BState.mk 1 0 [] true (fun _ => 0)
        (some (initialBState fun _ => 0)))]
      rfl _ (by simp)
  · exact (C5_decision_invariants
        ⟨1, 1, 0, 0, fun _ => [], fun _ => (0, []), fun _ => false, fun _ => 0⟩).2
      1 (fun _ => false) (initialBState fun _ => 0) (fun _ => false) rfl

/-- Claim C6: if `pending` is empty at the start of an expansion round
(before any terminal state has been popped), the pass raises the "Ran out
of legal states" fatal internal error: the beam-doubling restart in the
source is intentionally dead code, so by default there is no restart. -/
theorem C6_total_mortality (p : PassParams) (fuel : Nat) (perm : Nat → Bool)
    (rngIdx : Nat) :
    passLoop p (fuel + 1) [] perm rngIdx = .error .ranOutOfStates := by
  simp [passLoop]

/-- Claim C7: structural-hash penalization runs only when
`beam_size > 1`, `num_passes > 1` and `pass_idx ≥ 0`; a popped state
whose `penalized` flag is already set is never re-penalized (so a state
deferred after penalization is not penalized again when re-popped in the
same expansion step); and the flag is cleared exactly when a new child is
enqueued by `enqueue_new_children`. -/
theorem C7_penalization_idempotent (p : PassParams) (perm : Nat → Bool)
    (hashes : Nat → Nat) (s : BState) :
    (¬(1 < p.beamSize ∧ 1 < p.numPasses ∧ 0 ≤ p.passIdx) →
        maybePenalize p perm hashes s = (s, hashes, false)) ∧
    (s.penalized = true → maybePenalize p perm hashes s = (s, hashes, false)) ∧
    ((maybePenalize p perm hashes s).2.2 = true →
        ∀ (perm2 : Nat → Bool) (hashes2 : Nat → Nat),
          maybePenalize p perm2 hashes2 (maybePenalize p perm hashes s).1 =
            ((maybePenalize p perm hashes s).1, hashes2, false)) ∧
    (∀ children q q2, enqueueChildren children q = some q2 →
        ∀ c ∈ q2.drop q.length, c.penalized = false) := by
  refine ⟨maybePenalize_guard_off p perm hashes s,
    maybePenalize_skip p perm hashes s, ?_, ?_⟩
  · intro h perm2 hashes2
    exact maybePenalize_skip p perm2 hashes2 _
      (maybePenalize_applied_penalized p perm hashes s h)
  · intro children q q2 h c hc
    rw [enqueueChildren_eq h, List.drop_left] at hc
    obtain ⟨c', -, rfl⟩ := List.mem_map.mp hc
    exact clearPenalized_penalized c'

/-- Claim C7 (witness): a state with `penalized = true` passes through
the penalization block untouched. -/
theorem C7_penalization_idempotent_witness :
    maybePenalize ⟨2, 5, 0, 1, fun _ => [], fun _ => (0, []), fun _ => false, fun _ => 0⟩
        (fun _ => false) (fun _ => 0) (BState.mk 0 0 [] true (fun _ => 0) none) =
      (BState.mk 0 0 [] true (fun _ => 0) none, fun _ => 0, false) :=
  (C7_penalization_idempotent _ _ _ _).2.1 rfl

theorem perm_insertByCost (x : Nat × ℚ) (l : List (Nat × ℚ)) :
    (insertByCost x l).Perm (x :: l) := by
  induction l with
  | nil => exact List.Perm.refl _
  | cons y ys ih =>
    unfold insertByCost
    split
    · exact List.Perm.refl _
    · exact (ih.cons y).trans (List.Perm.swap x y ys)

theorem perm_sortByCost (l : List (Nat × ℚ)) : (sortByCost l).Perm l := by
  induction l with
  | nil => exact List.Perm.refl _
  | cons x xs ih => exact (perm_insertByCost x (sortByCost xs)).trans (ih.cons x)

theorem sorted_insertByCost (x : Nat × ℚ) (l : List (Nat × ℚ))
    (h : List.Sorted (fun a b : Nat × ℚ => a.2 ≤ b.2) l) :
    List.Sorted (fun a b : Nat × ℚ => a.2 ≤ b.2) (insertByCost x l) := by
  induction l with
  | nil => simp [insertByCost]
  | cons y ys ih =>
    rw [List.sorted_cons] at h
    obtain ⟨hy, hys⟩ := h
    unfold insertByCost
    split
    · rename_i hlt
      rw [List.sorted_cons]
      refine ⟨?_, ?_⟩
      · intro b hb
        rcases List.mem_cons.mp hb with rfl | hb
        · exact le_of_lt hlt
        · exact le_trans (le_of_lt hlt) (hy b hb)
      · rw [List.sorted_cons]
        exact ⟨hy, hys⟩
    · rename_i hge
      rw [List.sorted_cons]
      refine ⟨?_, ih hys⟩
      intro b hb
      rcases List.mem_cons.mp ((perm_insertByCost x ys).mem_iff.mp hb) with rfl | hb'
      · exact le_of_not_lt hge
      · exact hy b hb'

theorem sorted_sortByCost (l : List (Nat × ℚ)) :
    List.Sorted (fun a b : Nat × ℚ => a.2 ≤ b.2) (sortByCost l) := by
  induction l with
  | nil => simp [sortByCost]
  | cons x xs ih => exact sorted_insertByCost x (sortByCost xs) ih

/-- Claim C9: `freeze_lowest_cost_stages` sorts the (node, summed
per-stage cost) pairs by ascending cost (the sorted list is a
permutation of the per-node sums) and freezes exactly
`|nodes| − log₂ |nodes|` of them — the `double` expression
`num_nodes - std::log2(num_nodes)` truncates to `⌊n − log₂ n⌋ = n −
⌈log₂ n⌉`; on a 4-node pipeline exactly `4 − log₂ 4 = 2` nodes are
frozen. -/
theorem C9_freeze_count (nodeIds stageNodes : List Nat) (cps : List ℚ) :
    (freeze_lowest_cost_stages nodeIds stageNodes cps).length =
        nodeIds.length - Nat.clog 2 nodeIds.length ∧
    List.Sorted (fun a b : Nat × ℚ => a.2 ≤ b.2)
        (sortByCost (nodeIds.map fun i => (i, sumCostsFor i stageNodes cps))) ∧
    (sortByCost (nodeIds.map fun i => (i, sumCostsFor i stageNodes cps))).Perm
        (nodeIds.map fun i => (i, sumCostsFor i stageNodes cps)) ∧
    (nodeIds.length = 4 →
        (freeze_lowest_cost_stages nodeIds stageNodes cps).length = 2) := by
  have hsortlen : (sortByCost (nodeIds.map fun i => (i, sumCostsFor i stageNodes cps))).length
      = nodeIds.length := by
    rw [(perm_sortByCost _).length_eq, List.length_map]
  have hlen : (freeze_lowest_cost_stages nodeIds stageNodes cps).length =
      nodeIds.length - Nat.clog 2 nodeIds.length := by
    unfold freeze_lowest_cost_stages numToFreeze
    rw [List.length_map, List.length_take, hsortlen]
    exact min_eq_left (Nat.sub_le _ _)
  refine ⟨hlen, sorted_sortByCost _, perm_sortByCost _, fun h4 => ?_⟩
  rw [hlen, h4, show Nat.clog 2 4 = 2 from by
    rw [show (4 : ℕ) = 2 ^ 2 from by norm_num, Nat.clog_pow 2 2 (by norm_num)]]

/-- Claim C9 (witness): a concrete 4-node pipeline freezes exactly 2
nodes. -/
theorem C9_freeze_count_witness :
    (freeze_lowest_cost_stages [0, 1, 2, 3] [0, 1, 2, 3] [4, 3, 2, 1]).length = 2 :=
  (C9_freeze_count [0, 1, 2, 3] [0, 1, 2, 3] [4, 3, 2, 1]).2.2.2 rfl

/-- The loop invariant of `optimal_schedule`'s running best: the best is
`none` only before pass 0; otherwise it is the cost of the earliest
minimum-cost winner among the non-pre-pass passes run so far. -/
def schedInv (w : Int → ℚ) (np i : Int) : Option (Int × ℚ) → Prop
  | none => i ≤ 0
  | some kc => 0 ≤ kc.1 ∧ kc.1 < i ∧ kc.1 < np ∧ kc.2 = w kc.1 ∧
      (∀ j : Int, 0 ≤ j → j < i → kc.2 ≤ w j) ∧
      (∀ j : Int, 0 ≤ j → j < kc.1 → kc.2 < w j)

theorem bestUpdate_inv {w : Int → ℚ} {np i : Int} {best : Option (Int × ℚ)}
    (hi : i < np) (h : schedInv w np i best) :
    schedInv w np (i + 1) (bestUpdate i (w i) best) := by
  cases best with
  | none =>
    have h0 : i ≤ 0 := h
    by_cases hc : (0 : Int) ≤ i
    · rw [show bestUpdate i (w i) none = some (i, w i) from by
        unfold bestUpdate; rw [if_pos hc]]
      refine ⟨hc, by omega, by omega, rfl, ?_, ?_⟩
      · intro j hj0 hj1
        have : j = i := by omega
        subst this
        exact le_refl _
      · intro j hj0 hji
        exfalso
        omega
    · rw [show bestUpdate i (w i) none = none from by
        unfold bestUpdate; rw [if_neg hc]]
      show i + 1 ≤ 0
      omega
  | some kc =>
    obtain ⟨k, ck⟩ := kc
    obtain ⟨h1, h2, h3, h4, h5, h6⟩ := h
    by_cases hc : 0 ≤ i ∧ (i = 0 ∨ w i < ck)
    · rw [show bestUpdate i (w i) (some (k, ck)) = some (i, w i) from by
        show (if 0 ≤ i ∧ (i = 0 ∨ w i < ck) then some (i, w i) else some (k, ck)) =
          some (i, w i)
        rw [if_pos hc]]
      obtain ⟨hi0, hor⟩ := hc
      refine ⟨hi0, by omega, hi, rfl, ?_, ?_⟩
      · intro j hj0 hj1
        by_cases hji : j = i
        · subst hji
          exact le_refl _
        · have hjlt : j < i := by omega
          have hwi : w i < ck := by
            rcases hor with h0 | h0
            · exfalso; omega
            · exact h0
          exact le_of_lt (lt_of_lt_of_le hwi (h5 j hj0 hjlt))
      · intro j hj0 hji
        have hwi : w i < ck := by
          rcases hor with h0 | h0
          · exfalso; omega
          · exact h0
        exact lt_of_lt_of_le hwi (h5 j hj0 hji)
    · rw [show bestUpdate i (w i) (some (k, ck)) = some (k, ck) from by
        show (if 0 ≤ i ∧ (i = 0 ∨ w i < ck) then some (i, w i) else some (k, ck)) =
          some (k, ck)
        rw [if_neg hc]]
      have hi0 : 0 ≤ i := by omega
      have hle : ck ≤ w i :=
        le_of_not_lt fun hlt => hc ⟨hi0, Or.inr hlt⟩
      refine ⟨h1, by omega, h3, h4, ?_, h6⟩
      intro j hj0 hj1
      by_cases hji : j = i
      · subst hji
        exact hle
      · exact h5 j hj0 (by omega)

theorem schedLoop_inv (w : Int → ℚ) (np : Int) :
    ∀ (fuel : Nat) (i : Int) (best : Option (Int × ℚ)),
      (np - i).toNat < fuel → schedInv w np i best →
      schedInv w np (max i np) (schedLoop w np fuel i best) := by
  intro fuel
  induction fuel with
  | zero =>
    intro i best hf hinv
    omega
  | succ n ih =>
    intro i best hf hinv
    simp only [schedLoop]
    split
    · rename_i hlt
      have hrec := ih (i + 1) (bestUpdate i (w i) best) (by omega) (bestUpdate_inv hlt hinv)
      rw [show max (i + 1) np = np from max_eq_right (by omega)] at hrec
      rw [show max i np = np from max_eq_right (le_of_lt hlt)]
      exact hrec
    · rename_i hge
      rw [show max i np = i from max_eq_left (by omega)]
      exact hinv

/-- Claim C10: when at least one non-pre-pass pass runs,
`optimal_schedule` returns the winner of a pass with index `≥ 0` whose
cost is minimal among all non-pre-pass winners; the running best is
replaced only on strictly lower cost, so the returned winner is the
earliest minimum (and not necessarily the final pass's winner). -/
theorem C10_optimal_schedule_min (w : Int → ℚ) (numPasses : Int) (usePrePass : Bool)
    (h : 1 ≤ (if usePrePass ∧ 1 < numPasses then numPasses - 1 else numPasses)) :
    ∃ i c, optimal_schedule w numPasses usePrePass = some (i, c) ∧
      0 ≤ i ∧ i < (if usePrePass ∧ 1 < numPasses then numPasses - 1 else numPasses) ∧
      c = w i ∧
      (∀ j : Int, 0 ≤ j →
        j < (if usePrePass ∧ 1 < numPasses then numPasses - 1 else numPasses) →
        c ≤ w j) ∧
      (∀ j : Int, 0 ≤ j → j < i → c < w j) := by
  set np : Int := if usePrePass ∧ 1 < numPasses then numPasses - 1 else numPasses with hnp
  set start : Int := if usePrePass then -1 else 0 with hstart
  have hstart0 : start ≤ 0 := by
    rw [hstart]
    split <;> omega
  have hinv0 : schedInv w np start none := hstart0
  have hmain := schedLoop_inv w np ((np - start).toNat + 1) start none (by omega) hinv0
  have heq : optimal_schedule w numPasses usePrePass =
      schedLoop w np ((np - start).toNat + 1) start none := rfl
  rw [show max start np = np from max_eq_right (by omega)] at hmain
  rw [heq]
  cases hres : schedLoop w np ((np - start).toNat + 1) start none with
  | none =>
    rw [hres] at hmain
    have : np ≤ 0 := hmain
    omega
  | some kc =>
    obtain ⟨k, ck⟩ := kc
    rw [hres] at hmain
    obtain ⟨h1, h2, h3, h4, h5, h6⟩ := hmain
    exact ⟨k, ck, rfl, h1, h3, h4, h5, h6⟩

/-- Claim C10 (witness): a three-pass run returns a defined winner with a
non-pre-pass index. -/
theorem C10_optimal_schedule_min_witness :
    ∃ i c, optimal_schedule (fun j => if j = 1 then (3 : ℚ) else 5) 3 false =
        some (i, c) ∧ 0 ≤ i := by
  obtain ⟨i, c, h1, h2, -⟩ :=
    C10_optimal_schedule_min (fun j => if j = 1 then (3 : ℚ) else 5) 3 false (by simp)
  exact ⟨i, c, h1, h2⟩

